import Mathlib

/-!
Verification development for the shared-whiteboard repository.

The definitions below are shallow embeddings of the TypeScript source:
geometry helpers and pointer handlers from src/components/Whiteboard.tsx,
and the Yjs-backed document store operations from
src/hooks/useWhiteboardStore.ts and the store variant in src/unnamed/part_006.

Numbers are modelled as rationals.  JavaScript computes `Math.sqrt` of a
squared distance before comparing with a radius; since the square root is
strictly monotone on nonnegative numbers, every comparison
`sqrt d < r` in the source is embedded as the exact comparison `d < r * r`
on squared distances, avoiding irrational values.  Yjs maps are embedded as
association lists whose `set` replaces the entry in place (Yjs key-set
semantics), and one Yjs transaction is one Lean function application: a
subscriber observes exactly the states before and after a transaction.
-/

namespace Whiteboard

/-- 2-D point, from src/types.ts `Point`. -/
structure Point where
  x : ℚ
  y : ℚ
deriving DecidableEq, Repr

/-- Freehand stroke, from src/types.ts `Path`. -/
structure Path where
  id : String
  points : List Point
  color : String
  width : ℚ
deriving DecidableEq, Repr

/-- Axis-aligned box, from the `Bounds` interface in src/components/Whiteboard.tsx. -/
structure Bounds where
  x : ℚ
  y : ℚ
  width : ℚ
  height : ℚ
deriving DecidableEq, Repr

/-- `dist2` from `distToSegment` (Whiteboard.tsx lines 190-198): squared euclidean distance. -/
def dist2 (v w : Point) : ℚ :=
  (v.x - w.x) ^ 2 + (v.y - w.y) ^ 2

/-- Squared form of `distToSegment` (Whiteboard.tsx lines 190-198).  The source
returns `Math.sqrt` of this value; all uses compare it with a radius, so we
keep the square and compare with the squared radius. -/
def distToSegmentSq (p v w : Point) : ℚ :=
  let l2 := dist2 v w
  if l2 = 0 then dist2 p v
  else
    let t := ((p.x - v.x) * (w.x - v.x) + (p.y - v.y) * (w.y - v.y)) / l2
    let t := max 0 (min 1 t)
    let proj : Point := ⟨v.x + t * (w.x - v.x), v.y + t * (w.y - v.y)⟩
    dist2 p proj

/-- `getPathBounds` (Whiteboard.tsx lines 200-215).  The source folds min/max
starting from plus/minus Infinity and returns the zero box when the point list
is empty (the `Number.isFinite` sentinel check); starting the fold at the first
point is the equivalent total formulation over rationals. -/
def getPathBounds (path : Path) : Bounds :=
  match path.points with
  | [] => ⟨0, 0, 0, 0⟩
  | q :: qs =>
    let minX := qs.foldl (fun m pt => min m pt.x) q.x
    let minY := qs.foldl (fun m pt => min m pt.y) q.y
    let maxX := qs.foldl (fun m pt => max m pt.x) q.x
    let maxY := qs.foldl (fun m pt => max m pt.y) q.y
    ⟨minX, minY, maxX - minX, maxY - minY⟩

/-- `normalizeRect` (Whiteboard.tsx lines 238-247). -/
def normalizeRect (start stop : Point) : Bounds :=
  ⟨min start.x stop.x, min start.y stop.y, abs (stop.x - start.x), abs (stop.y - start.y)⟩

/-- `rectsIntersect` (Whiteboard.tsx lines 249-253). -/
def rectsIntersect (a b : Bounds) : Bool :=
  decide (a.x < b.x + b.width) && decide (b.x < a.x + a.width) &&
    decide (a.y < b.y + b.height) && decide (b.y < a.y + a.height)

/-- Consecutive point pairs of a stroke: the segments `(points[i], points[i+1])`
iterated by `eraseAt` and `getPathAtPoint` (loop index `i` from `0` to
`points.length - 2`). -/
def segments (pts : List Point) : List (Point × Point) :=
  pts.zip pts.tail

/-- Boolean membership of a string in a list, translating JavaScript
`array.includes(s)`. -/
def memStr : List String → String → Bool
  | [], _ => false
  | x :: xs, s => if x = s then true else memStr xs s

/-- The index-collection loop of `deletePaths`
(useWhiteboardStore.ts lines 139-147, identically part_006 lines 377-382):
`current.forEach((p, i) => { if (pathIds.includes(p.id)) indexesToDelete.push(i) })`,
with `i` the running index. -/
def indexesToDelete (pathIds : List String) : List Path → Nat → List Nat
  | [], _ => []
  | p :: ps, i =>
    if memStr pathIds p.id then i :: indexesToDelete pathIds ps (i + 1)
    else indexesToDelete pathIds ps (i + 1)

/-- Insert into a descending-sorted list, used to model the JavaScript
`indexesToDelete.sort((a, b) => b - a)`. -/
def insertDesc (n : Nat) : List Nat → List Nat
  | [] => [n]
  | m :: ms => if m ≤ n then n :: m :: ms else m :: insertDesc n ms

/-- Descending sort, modelling `array.sort((a, b) => b - a)`. -/
def sortDesc : List Nat → List Nat
  | [] => []
  | n :: ns => insertDesc n (sortDesc ns)

/-- `deletePaths` (useWhiteboardStore.ts lines 135-151, part_006 lines 373-385):
inside one transaction, read the current array, collect the indices whose
stroke id is in `pathIds`, sort them descending, and delete them one by one
(each `yPaths.delete(i, 1)` erases index `i` of the current array). -/
def deletePaths (pathIds : List String) (paths : List Path) : List Path :=
  let current := paths
  let idxs := indexesToDelete pathIds current 0
  (sortDesc idxs).foldl (fun acc i => acc.eraseIdx i) current

/-! ### Eraser and select-tool hit tests (Whiteboard.tsx) -/

/-- The per-stroke eraser test of `eraseAt` (Whiteboard.tsx lines 272-279):
some segment of the stroke is at distance strictly below `ERASER_RADIUS = 20`
from the erase point (squared: `< 400`). -/
def pathHitByEraser (pos : Point) (p : Path) : Bool :=
  (segments p.points).any (fun s => decide (distToSegmentSq pos s.1 s.2 < 400))

/-- The id list handed to `onPathsDelete` by `eraseAt`
(Whiteboard.tsx lines 272-279): ids of all strokes hit by the eraser. -/
def pathIdsToErase (pos : Point) (paths : List Path) : List String :=
  (paths.filter (fun p => pathHitByEraser pos p)).map Path.id

/-- The stroke-collection effect of one `eraseAt` call
(Whiteboard.tsx lines 268-283): all hit strokes are deleted through a single
`onPathsDelete` call (the store `deletePaths`), issued only when the hit list
is non-empty. -/
def eraseAtStrokes (pos : Point) (paths : List Path) : List Path :=
  let pathsToDelete := pathIdsToErase pos paths
  if 0 < pathsToDelete.length then deletePaths pathsToDelete paths else paths

/-- One step of the closest-stroke scan of `getPathAtPoint`
(Whiteboard.tsx lines 255-266), carrying the best `(path, squared distance)`
so far; the source keeps a segment when
`dist <= threshold && (!closest || dist < closest.distance)`. -/
def updateClosest (pos : Point) (thresholdSq : ℚ) (p : Path) :
    Option (Path × ℚ) → Option (Path × ℚ) :=
  fun c =>
    (segments p.points).foldl
      (fun c s =>
        let d := distToSegmentSq pos s.1 s.2
        if decide (d ≤ thresholdSq) &&
            (match c with
             | none => true
             | some cd => decide (d < cd.2)) then some (p, d)
        else c) c

/-- `getPathAtPoint` (Whiteboard.tsx lines 255-266), with the squared distance
threshold (source default `threshold = 8`, squared `64`). -/
def getPathAtPoint (paths : List Path) (pos : Point) (thresholdSq : ℚ) : Option Path :=
  (paths.foldl (fun c p => updateClosest pos thresholdSq p c) none).map Prod.fst

/-! ### Stroke group transform (Whiteboard.tsx lines 425-440) -/

/-- The resize-mode transform of `handlePointerMove` (Whiteboard.tsx lines
432-438): scale every point of every selected stroke about the fixed
bounding-box anchor by the per-axis factors. -/
def scaleSelectedPaths (bounds : Bounds) (scaleX scaleY : ℚ) (originPaths : List Path) :
    List Path :=
  originPaths.map (fun path =>
    { path with
      points := path.points.map (fun point =>
        ⟨bounds.x + (point.x - bounds.x) * scaleX,
         bounds.y + (point.y - bounds.y) * scaleY⟩) })

/-! ### Document store (useWhiteboardStore.ts and part_006) -/

/-- Sticky note, from src/types.ts `StickyNote`. -/
structure StickyNote where
  id : String
  x : ℚ
  y : ℚ
  text : String
  color : String
  width : ℚ
  height : ℚ
  authorId : Option String
  authorName : Option String
  authorColor : Option String
deriving DecidableEq, Repr

/-- Board image, from src/types.ts `BoardImage`. -/
structure BoardImage where
  id : String
  x : ℚ
  y : ℚ
  src : String
  width : ℚ
  height : ℚ
  title : Option String
deriving DecidableEq, Repr

/-- Board file, from src/types.ts `BoardFile`. -/
structure BoardFile where
  id : String
  x : ℚ
  y : ℚ
  fileName : String
  fileType : String
  data : String
  width : ℚ
  height : ℚ
deriving DecidableEq, Repr

/-- Position/size shadow record, from part_006 lines 6-8 (`NoteMeta`,
`ImageMeta` and `FileMeta` are the same `Pick` of id/x/y/width/height). -/
structure ItemMeta where
  id : String
  x : ℚ
  y : ℚ
  width : ℚ
  height : ℚ
deriving DecidableEq, Repr

/-- Y.Map lookup: association-list find by key. -/
def lookupAssoc {α : Type} : List (String × α) → String → Option α
  | [], _ => none
  | (k, v) :: rest, key => if k = key then some v else lookupAssoc rest key

/-- Y.Map `set`: replace the entry for the key in place, else append. -/
def setAssoc {α : Type} : List (String × α) → String → α → List (String × α)
  | [], key, v => [(key, v)]
  | (k, w) :: rest, key, v =>
    if k = key then (key, v) :: rest else (k, w) :: setAssoc rest key v

/-- Y.Map `delete`: drop all entries for the key. -/
def eraseAssoc {α : Type} (l : List (String × α)) (key : String) : List (String × α) :=
  l.filter (fun kv => kv.1 ≠ key)

/-- The replicated document: the stroke array plus the id-keyed note/image/file
maps and their meta shadow maps (part_006 lines 279-285). -/
@[ext]
structure Doc where
  paths : List Path
  notes : List (String × StickyNote)
  notesMeta : List (String × ItemMeta)
  images : List (String × BoardImage)
  imagesMeta : List (String × ItemMeta)
  files : List (String × BoardFile)
  filesMeta : List (String × ItemMeta)
deriving DecidableEq, Repr

/-- The document with every collection empty. -/
def emptyDoc : Doc := ⟨[], [], [], [], [], [], []⟩

/-- `clearBoard` (useWhiteboardStore.ts lines 153-162, part_006 lines 402-414):
one transaction deleting the whole stroke array and clearing every map. -/
def clearBoard (_d : Doc) : Doc :=
  { paths := []
    notes := []
    notesMeta := []
    images := []
    imagesMeta := []
    files := []
    filesMeta := [] }

/-- The store-level `deletePaths` acting on the document. -/
def deletePathsDoc (pathIds : List String) (d : Doc) : Doc :=
  { d with paths := deletePaths pathIds d.paths }

/-- JavaScript `a || b` on strings: the empty string is falsy. -/
def jsOr (a b : String) : String :=
  if a = "" then b else a

/-- JavaScript `a || b` on optional strings: `undefined` and `""` are falsy. -/
def jsOrOpt (a b : Option String) : Option String :=
  match a with
  | some s => if s = "" then b else some s
  | none => b

/-- The meta-difference guard shared by `updateNote`, `updateImage` and
`updateFile` (part_006): `!existingMeta || existingMeta.x !== nextMeta.x || …`. -/
def metaDiffers (existingMeta : Option ItemMeta) (nextMeta : ItemMeta) : Bool :=
  match existingMeta with
  | none => true
  | some m =>
    decide (m.x ≠ nextMeta.x) || decide (m.y ≠ nextMeta.y) ||
      decide (m.width ≠ nextMeta.width) || decide (m.height ≠ nextMeta.height)

/-- The id/x/y/width/height projection `nextMeta` built by the part_006 update
and add helpers. -/
def nextMetaOfNote (note : StickyNote) : ItemMeta :=
  ⟨note.id, note.x, note.y, note.width, note.height⟩

/-- The replacement value written by `updateNote` when text or colour changed
(part_006 lines 474-481): spread the existing note, take the new text, and keep
the existing colour and author fields with JavaScript `||` fallbacks. -/
def mergeNote (e note : StickyNote) : StickyNote :=
  { e with
    text := note.text
    color := jsOr e.color note.color
    authorId := jsOrOpt e.authorId note.authorId
    authorName := jsOrOpt e.authorName note.authorName
    authorColor := jsOrOpt e.authorColor note.authorColor }

/-- `updateNote` (part_006 lines 442-485): refresh the meta shadow entry when
position or size changed, insert the note when absent, otherwise rewrite only
text and the author fields with JavaScript `||` fallbacks. -/
def updateNote (note : StickyNote) (d : Doc) : Doc :=
  let existing := lookupAssoc d.notes note.id
  let existingMeta := lookupAssoc d.notesMeta note.id
  let nextMeta := nextMetaOfNote note
  let d1 :=
    if metaDiffers existingMeta nextMeta then
      { d with notesMeta := setAssoc d.notesMeta note.id nextMeta }
    else d
  match existing with
  | none => { d1 with notes := setAssoc d1.notes note.id note }
  | some e =>
    if e.text ≠ note.text ∨ e.color ≠ note.color then
      { d1 with notes := setAssoc d1.notes note.id (mergeNote e note) }
    else d1

/-- `deleteNote` (part_006 lines 487-490). -/
def deleteNote (id : String) (d : Doc) : Doc :=
  { d with notes := eraseAssoc d.notes id, notesMeta := eraseAssoc d.notesMeta id }

/-- `updateImage` (part_006 lines 508-539): refresh meta when changed and
insert the image only when absent (image content is write-once). -/
def updateImage (img : BoardImage) (d : Doc) : Doc :=
  let existing := lookupAssoc d.images img.id
  let existingMeta := lookupAssoc d.imagesMeta img.id
  let nextMeta : ItemMeta := ⟨img.id, img.x, img.y, img.width, img.height⟩
  let d1 :=
    if metaDiffers existingMeta nextMeta then
      { d with imagesMeta := setAssoc d.imagesMeta img.id nextMeta }
    else d
  match existing with
  | none => { d1 with images := setAssoc d1.images img.id img }
  | some _ => d1

/-- `deleteImage` (part_006 lines 541-544). -/
def deleteImage (id : String) (d : Doc) : Doc :=
  { d with images := eraseAssoc d.images id, imagesMeta := eraseAssoc d.imagesMeta id }

/-- `updateFile` (part_006 lines 562-587): only the meta shadow entry is ever
written (file content is write-once). -/
def updateFile (file : BoardFile) (d : Doc) : Doc :=
  let existingMeta := lookupAssoc d.filesMeta file.id
  let nextMeta : ItemMeta := ⟨file.id, file.x, file.y, file.width, file.height⟩
  if metaDiffers existingMeta nextMeta then
    { d with filesMeta := setAssoc d.filesMeta file.id nextMeta }
  else d

/-- `deleteFile` (part_006 lines 589-592). -/
def deleteFile (id : String) (d : Doc) : Doc :=
  { d with files := eraseAssoc d.files id, filesMeta := eraseAssoc d.filesMeta id }

/-! ### Canvas interaction state (Whiteboard.tsx) -/

/-- `ToolType` from src/types.ts. -/
inductive ToolType where
  | SELECT
  | PEN
  | ERASER
  | NOTE
  | IMAGE
deriving DecidableEq, Repr

/-- `PenStyle` from src/types.ts. -/
structure PenStyle where
  id : String
  label : String
  color : String
  width : ℚ
  cursorColor : Option String
deriving DecidableEq, Repr

/-- The kind tag of a draggable item (the literal union in Whiteboard.tsx). -/
inductive ItemKind where
  | note
  | image
  | file
deriving DecidableEq, Repr

/-- The `dragItem` state of Whiteboard.tsx line 73. -/
structure DragItem where
  kind : ItemKind
  id : String
  offsetX : ℚ
  offsetY : ℚ
deriving DecidableEq, Repr

/-- The `resizeItem` state of Whiteboard.tsx line 74. -/
structure ResizeItem where
  kind : ItemKind
  id : String
  startX : ℚ
  startY : ℚ
  startWidth : ℚ
  startHeight : ℚ
deriving DecidableEq, Repr

/-- The mode of a stroke-group transform. -/
inductive TransformMode where
  | move
  | resize
deriving DecidableEq, Repr

/-- `PathTransform` (Whiteboard.tsx lines 49-54). -/
structure PathTransform where
  mode : TransformMode
  start : Point
  bounds : Bounds
  originPaths : List Path
deriving DecidableEq, Repr

/-- The `selectionRect` state of Whiteboard.tsx line 77 (`start`/`end`). -/
structure SelectionRect where
  start : Point
  stop : Point
deriving DecidableEq, Repr

/-- The interaction state of the Whiteboard component: the drawing refs
(lines 69-70), the item drag/resize states (lines 73-74), the stroke selection
states (lines 76-78), and whether the container currently holds a pointer
capture. -/
structure WhiteboardState where
  isDrawing : Bool
  currentPathPoints : List Point
  dragItem : Option DragItem
  resizeItem : Option ResizeItem
  pathTransform : Option PathTransform
  selectionRect : Option SelectionRect
  selectedPathIds : List String
  captured : Bool
deriving DecidableEq, Repr

/-- `handlePointerUp` (Whiteboard.tsx lines 475-510): release the pointer
capture, drop the drag/resize/transform states, commit a marquee selection
when its rectangle exceeds 4x4, and, when a drawing is in progress, commit the
non-empty point buffer as a new stroke (`onPathAdd`, the store append) and
clear the buffer.  `newId` stands for the fresh `uuidv4()`.  Returns the new
interaction state and the new stroke collection. -/
def handlePointerUp (tool : ToolType) (penStyle : PenStyle) (newId : String)
    (paths : List Path) (st : WhiteboardState) : WhiteboardState × List Path :=
  let st := { st with
    captured := false
    dragItem := none
    resizeItem := none
    pathTransform := none }
  let st :=
    match st.selectionRect with
    | some sr =>
      let rect := normalizeRect sr.start sr.stop
      let st :=
        if 4 < rect.width ∧ 4 < rect.height then
          { st with
            selectedPathIds :=
              (paths.filter (fun p => rectsIntersect (getPathBounds p) rect)).map Path.id }
        else st
      { st with selectionRect := none }
    | none => st
  if st.isDrawing then
    let newPaths :=
      if tool = ToolType.PEN ∧ 0 < st.currentPathPoints.length then
        paths ++ [{ id := newId
                    points := st.currentPathPoints
                    color := penStyle.color
                    width := penStyle.width }]
      else paths
    ({ st with currentPathPoints := [], isDrawing := false }, newPaths)
  else (st, paths)

/-- The pointer-cancel handler: Whiteboard.tsx line 619 binds
`onPointerCancel={handlePointerUp}`, so cancelling runs exactly the pointer-up
handler. -/
def handlePointerCancel (tool : ToolType) (penStyle : PenStyle) (newId : String)
    (paths : List Path) (st : WhiteboardState) : WhiteboardState × List Path :=
  handlePointerUp tool penStyle newId paths st

/-! ### Identity ledger and colour assignment (part_006) -/

/-- `USER_COLORS` (part_006 lines 20-33). -/
def USER_COLORS : List String :=
  ["#fee2e2", "#ffedd5", "#fef3c7", "#ecfccb", "#d1fae5", "#cffafe",
   "#dbeafe", "#ede9fe", "#fce7f3", "#f5f5f5", "#e2e8f0", "#e0f2fe"]

/-- A durable ledger entry (`yUsers` value, part_006 line 142). -/
structure UserEntry where
  name : String
  color : String
  order : Nat
deriving DecidableEq, Repr

/-- First-occurrence deduplication with an explicit seen accumulator,
translating the `uniqueOrderIds`/`seen` loop of `ensureLocalUser`
(part_006 lines 180-187). -/
def dedupFirstAux (seen : List String) : List String → List String
  | [] => []
  | x :: xs =>
    if memStr seen x then dedupFirstAux seen xs
    else x :: dedupFirstAux (x :: seen) xs

/-- First-occurrence deduplication of the join-order array. -/
def dedupFirst (l : List String) : List String :=
  dedupFirstAux [] l

/-- The seen accumulator after processing a list, used to split
`dedupFirstAux` over an append. -/
def seenAfter (seen : List String) : List String → List String
  | [] => seen
  | x :: xs =>
    if memStr seen x then seenAfter seen xs
    else seenAfter (x :: seen) xs

/-- JavaScript `array.indexOf`, with `none` standing for `-1`. -/
def indexOfStr : List String → String → Option Nat
  | [], _ => none
  | x :: xs, s => if x = s then some 0 else (indexOfStr xs s).map (· + 1)

/-- The join order a peer derives for a user id from the replicated
`user_order` array: the position of its first occurrence after
first-occurrence deduplication. -/
def joinOrderOf (userId : String) (userOrder : List String) : Option Nat :=
  indexOfStr (dedupFirst userOrder) userId

/-- The order-array step of `ensureLocalUser` (part_006 lines 175-179): push
the user id onto the replicated `user_order` array when it is missing. -/
def ledgerOrderIds (userId : String) (userOrder : List String) : List String :=
  if memStr userOrder userId then userOrder else userOrder ++ [userId]

/-- The ledger effect of `ensureLocalUser` (part_006 lines 172-231): append the
user id to the `user_order` array when missing, deduplicate keeping first
occurrences, take the position of the id as its join order, pick
`USER_COLORS[order % USER_COLORS.length]`, and write the `{name, color, order}`
entry into the `users` map when it changed.  The awareness broadcast and the
recolouring of already-authored notes (lines 225-247) touch no ledger state and
are outside this model; the source also guards on an empty user id. -/
def ensureLocalUserLedger (userId userName : String) (userOrder : List String)
    (users : List (String × UserEntry)) : List String × List (String × UserEntry) :=
  if userId = "" then (userOrder, users)
  else
    let orderIds := ledgerOrderIds userId userOrder
    let uniqueOrderIds := dedupFirst orderIds
    let order :=
      match indexOfStr uniqueOrderIds userId with
      | some o => o
      | none => uniqueOrderIds.length
    let color := USER_COLORS.getD (order % USER_COLORS.length) ""
    let users :=
      match lookupAssoc users userId with
      | some existing =>
        if existing.name ≠ userName ∨ existing.order ≠ order ∨ existing.color ≠ color then
          setAssoc users userId { existing with name := userName, order := order, color := color }
        else users
      | none => setAssoc users userId { name := userName, color := color, order := order }
    (orderIds, users)

end Whiteboard

namespace Whiteboard

/-! ### Lemmas about `deletePaths` -/

theorem memStr_iff (l : List String) (s : String) : memStr l s = true ↔ s ∈ l := by
  induction l with
  | nil => simp [memStr]
  | cons x xs ih =>
    by_cases hx : x = s
    · subst hx; simp [memStr]
    · have hx2 : ¬ s = x := fun h => hx h.symm
      simp [memStr, hx, ih, hx2]

theorem indexesToDelete_shift (ids : List String) (ps : List Path) (i : Nat) :
    indexesToDelete ids ps (i + 1) = (indexesToDelete ids ps i).map (· + 1) := by
  induction ps generalizing i with
  | nil => simp [indexesToDelete]
  | cons p ps ih =>
    by_cases hp : memStr ids p.id <;> simp [indexesToDelete, hp, ih]

theorem indexesToDelete_lower (ids : List String) (ps : List Path) (i : Nat) :
    ∀ j ∈ indexesToDelete ids ps i, i ≤ j := by
  induction ps generalizing i with
  | nil => simp [indexesToDelete]
  | cons p ps ih =>
    intro j hj
    by_cases hp : memStr ids p.id
    · simp only [indexesToDelete, hp, if_pos, List.mem_cons] at hj
      rcases hj with rfl | hj
      · exact le_refl j
      · exact le_trans (Nat.le_succ i) (ih (i + 1) j hj)
    · simp only [indexesToDelete, hp, if_neg, Bool.false_eq_true, not_false_iff] at hj
      exact le_trans (Nat.le_succ i) (ih (i + 1) j hj)

theorem insertDesc_of_forall_lt (n : Nat) (l : List Nat) (h : ∀ m ∈ l, n < m) :
    insertDesc n l = l ++ [n] := by
  induction l with
  | nil => rfl
  | cons m ms ih =>
    have hm : n < m := h m (List.mem_cons_self m ms)
    have : ¬ m ≤ n := Nat.not_le.mpr hm
    simp only [insertDesc, this, if_neg, not_false_iff]
    rw [ih (fun x hx => h x (List.mem_cons_of_mem m hx))]
    simp

theorem sortDesc_indexesToDelete (ids : List String) (ps : List Path) (i : Nat) :
    sortDesc (indexesToDelete ids ps i) = (indexesToDelete ids ps i).reverse := by
  induction ps generalizing i with
  | nil => simp [indexesToDelete, sortDesc]
  | cons p ps ih =>
    by_cases hp : memStr ids p.id
    · simp only [indexesToDelete, hp, if_pos, sortDesc]
      rw [ih (i + 1)]
      rw [insertDesc_of_forall_lt]
      · simp
      · intro m hm
        simp only [List.mem_reverse] at hm
        exact Nat.lt_of_succ_le (indexesToDelete_lower ids ps (i + 1) m hm)
    · simp only [indexesToDelete, hp, if_neg, Bool.false_eq_true, not_false_iff]
      exact ih (i + 1)

theorem foldr_eraseIdx_map_succ (x : Path) (xs : List Path) (idxs : List Nat) :
    List.foldr (fun i acc => List.eraseIdx acc i) (x :: xs) (idxs.map (· + 1)) =
      x :: List.foldr (fun i acc => List.eraseIdx acc i) xs idxs := by
  induction idxs with
  | nil => rfl
  | cons i is ih => simp [ih, List.eraseIdx]

theorem foldr_eraseIdx_indexes (ids : List String) (ps : List Path) :
    List.foldr (fun i acc => List.eraseIdx acc i) ps (indexesToDelete ids ps 0) =
      ps.filter (fun p => !(memStr ids p.id)) := by
  induction ps with
  | nil => simp [indexesToDelete]
  | cons p ps ih =>
    have hshift : indexesToDelete ids ps 1 = (indexesToDelete ids ps 0).map (· + 1) :=
      indexesToDelete_shift ids ps 0
    by_cases hp : memStr ids p.id
    · simp only [indexesToDelete, hp, if_pos, List.foldr_cons, hshift,
        foldr_eraseIdx_map_succ, List.eraseIdx]
      simp [List.filter, hp, ih]
    · simp only [indexesToDelete, hp, if_neg, Bool.false_eq_true, not_false_iff, hshift,
        foldr_eraseIdx_map_succ]
      simp [List.filter, hp, ih]

/-- Core characterisation: `deletePaths` filters out exactly the strokes whose
id is in the given list, keeping the rest in order. -/
theorem deletePaths_eq_filter (ids : List String) (paths : List Path) :
    deletePaths ids paths = paths.filter (fun p => !(memStr ids p.id)) := by
  simp only [deletePaths]
  rw [sortDesc_indexesToDelete, List.foldl_reverse]
  exact foldr_eraseIdx_indexes ids paths

theorem memStr_eq_false {l : List String} {s : String} (h : s ∉ l) : memStr l s = false := by
  cases hm : memStr l s
  · rfl
  · exact absurd ((memStr_iff l s).mp hm) h

/-- C1: for every document state and every set of stroke ids, `deletePaths`
removes exactly the strokes whose id is in the set, resolving ids against the
array read inside the deleting transaction itself; every stroke whose id is
not in the set survives in its original relative order (the result is the
in-order filter of the current array). -/
theorem deletePaths_removes_exactly_ids (ids : List String) (paths : List Path) :
    deletePaths ids paths = paths.filter (fun p => decide (p.id ∉ ids)) := by
  rw [deletePaths_eq_filter]
  apply List.filter_congr
  intro p _
  by_cases h : p.id ∈ ids
  · simp [h, (memStr_iff ids p.id).mpr h]
  · simp [h, memStr_eq_false h]

/-! ### Association list lemmas -/

theorem lookupAssoc_setAssoc_self {α : Type} (l : List (String × α)) (k : String) (v : α) :
    lookupAssoc (setAssoc l k v) k = some v := by
  induction l with
  | nil => simp [setAssoc, lookupAssoc]
  | cons kv rest ih =>
    obtain ⟨k0, v0⟩ := kv
    by_cases hk : k0 = k
    · simp [setAssoc, hk, lookupAssoc]
    · simp [setAssoc, hk, lookupAssoc, ih]

theorem setAssoc_lookup_self {α : Type} (l : List (String × α)) (k : String) (v : α)
    (h : lookupAssoc l k = some v) : setAssoc l k v = l := by
  induction l with
  | nil => simp [lookupAssoc] at h
  | cons kv rest ih =>
    obtain ⟨k0, v0⟩ := kv
    by_cases hk : k0 = k
    · subst hk
      have hv : v0 = v := by simpa [lookupAssoc] using h
      subst hv
      simp [setAssoc]
    · simp only [lookupAssoc, hk, if_neg, not_false_iff] at h
      simp [setAssoc, hk, ih h]

theorem eraseAssoc_of_lookup_none {α : Type} (l : List (String × α)) (k : String)
    (h : lookupAssoc l k = none) : eraseAssoc l k = l := by
  induction l with
  | nil => rfl
  | cons kv rest ih =>
    obtain ⟨k0, v0⟩ := kv
    by_cases hk : k0 = k
    · simp [lookupAssoc, hk] at h
    · simp only [lookupAssoc, hk, if_neg, not_false_iff] at h
      have hr := ih h
      simp only [eraseAssoc] at hr ⊢
      simp only [List.filter_cons, hr]
      simp [hk]

/-- C4: `clearBoard` is one transaction after which all four collections
(strokes, notes, images, files) and the meta shadow maps are empty; since the
whole clear is a single transaction, a subscriber observes only the pre-state
and this fully cleared post-state, never a partially cleared snapshot. -/
theorem clearBoard_empties_all_collections (d : Doc) :
    (clearBoard d).paths = [] ∧ (clearBoard d).notes = [] ∧
      (clearBoard d).images = [] ∧ (clearBoard d).files = [] ∧
      (clearBoard d).notesMeta = [] ∧ (clearBoard d).imagesMeta = [] ∧
      (clearBoard d).filesMeta = [] :=
  ⟨rfl, rfl, rfl, rfl, rfl, rfl, rfl⟩

/-- C5 counterexample: the claim says every update whose target id is absent
is a no-op, but `updateNote` on an absent id inserts the payload: on the empty
document it produces a different document. -/
theorem updateNote_absent_id_inserts_cex :
    updateNote
      { id := ("n1"), x := 0, y := 0, text := ("hi"), color := ("#fef3c7"),
        width := 200, height := 50, authorId := none, authorName := none,
        authorColor := none } emptyDoc ≠ emptyDoc := by
  decide

/-- C5 (amended): operations on an absent target id never raise (all store
operations are total); the delete operations (`deleteNote`, `deleteImage`,
`deleteFile`, `deletePaths`) are no-ops, while the update operations are
upserts rather than no-ops: `updateNote` and `updateImage` insert the payload
item and `updateFile` inserts its meta record. -/
theorem absent_id_deletes_noop_updates_upsert
    (d : Doc) (id : String) (ids : List String)
    (note : StickyNote) (img : BoardImage) (file : BoardFile)
    (hn : lookupAssoc d.notes id = none) (hnm : lookupAssoc d.notesMeta id = none)
    (hi : lookupAssoc d.images id = none) (him : lookupAssoc d.imagesMeta id = none)
    (hf : lookupAssoc d.files id = none) (hfm : lookupAssoc d.filesMeta id = none)
    (hpaths : ∀ p ∈ d.paths, p.id ∉ ids)
    (hnid : note.id = id) (himgid : img.id = id) (hfid : file.id = id) :
    deleteNote id d = d ∧ deleteImage id d = d ∧ deleteFile id d = d ∧
      deletePathsDoc ids d = d ∧
      lookupAssoc (updateNote note d).notes id = some note ∧
      lookupAssoc (updateImage img d).images id = some img ∧
      lookupAssoc (updateFile file d).filesMeta id =
        some ⟨id, file.x, file.y, file.width, file.height⟩ := by
  refine ⟨?_, ?_, ?_, ?_, ?_, ?_, ?_⟩
  · simp [deleteNote, eraseAssoc_of_lookup_none _ _ hn, eraseAssoc_of_lookup_none _ _ hnm]
  · simp [deleteImage, eraseAssoc_of_lookup_none _ _ hi, eraseAssoc_of_lookup_none _ _ him]
  · simp [deleteFile, eraseAssoc_of_lookup_none _ _ hf, eraseAssoc_of_lookup_none _ _ hfm]
  · have hfilter : d.paths.filter (fun p => !(memStr ids p.id)) = d.paths := by
      apply List.filter_eq_self.mpr
      intro p hp
      simp [memStr_eq_false (hpaths p hp)]
    simp [deletePathsDoc, deletePaths_eq_filter, hfilter]
  · rw [updateNote]
    simp only [hnid, hn]
    split
    · exact lookupAssoc_setAssoc_self _ _ _
    · exact lookupAssoc_setAssoc_self _ _ _
  · rw [updateImage]
    simp only [himgid, hi]
    split
    · exact lookupAssoc_setAssoc_self _ _ _
    · exact lookupAssoc_setAssoc_self _ _ _
  · rw [updateFile]
    simp only [hfid, hfm, metaDiffers, if_pos]
    exact lookupAssoc_setAssoc_self _ _ _

/-- C5 witness: with the empty document and target id n1, deletes are no-ops
and updates insert. -/
theorem absent_id_ops_witness :
    lookupAssoc emptyDoc.notes ("n1") = none ∧
      (∀ p ∈ emptyDoc.paths, p.id ∉ (["n1"] : List String)) ∧
      (deleteNote ("n1") emptyDoc = emptyDoc ∧ deleteImage ("n1") emptyDoc = emptyDoc ∧
        deleteFile ("n1") emptyDoc = emptyDoc ∧
        deletePathsDoc ["n1"] emptyDoc = emptyDoc ∧
        lookupAssoc
          (updateNote ⟨("n1"), 1, 2, ("hi"), ("#fef3c7"), 200, 50, none, none, none⟩
            emptyDoc).notes ("n1") =
          some ⟨("n1"), 1, 2, ("hi"), ("#fef3c7"), 200, 50, none, none, none⟩ ∧
        lookupAssoc
          (updateImage ⟨("n1"), 1, 2, ("src"), 100, 100, none⟩ emptyDoc).images ("n1") =
          some ⟨("n1"), 1, 2, ("src"), 100, 100, none⟩ ∧
        lookupAssoc
          (updateFile ⟨("n1"), 1, 2, ("f.txt"), ("text/plain"), ("data"), 100, 100⟩
            emptyDoc).filesMeta ("n1") =
          some ⟨("n1"), 1, 2, 100, 100⟩) :=
  ⟨rfl, by simp [emptyDoc],
    absent_id_deletes_noop_updates_upsert emptyDoc ("n1") ["n1"]
      ⟨("n1"), 1, 2, ("hi"), ("#fef3c7"), 200, 50, none, none, none⟩
      ⟨("n1"), 1, 2, ("src"), 100, 100, none⟩
      ⟨("n1"), 1, 2, ("f.txt"), ("text/plain"), ("data"), 100, 100⟩
      rfl rfl rfl rfl rfl rfl (by simp [emptyDoc]) rfl rfl rfl⟩

/-! ### Pointer-up and pointer-cancel (Whiteboard.tsx lines 475-510, 619) -/

/-- C3 counterexample: the claim says pointer-cancel during a Pen drawing
with a non-empty buffer leaves the store untouched, but the component binds
`onPointerCancel={handlePointerUp}`, which commits the buffer: starting from
the empty store the stroke collection is no longer empty. -/
theorem pointer_cancel_discards_cex :
    (handlePointerCancel ToolType.PEN ⟨("black"), ("black"), ("#111827"), 3, none⟩ ("s1")
        [] ⟨true, [⟨0, 0⟩], none, none, none, none, [], true⟩).2 ≠ [] := by
  decide

/-- C3 (amended): pointer-cancel runs the pointer-up handler, so with the Pen
tool and a non-empty uncommitted buffer it does not discard: it commits the
buffer as a new stroke appended to the store, then clears the buffer, ends the
drawing and releases the pointer capture. -/
theorem pointer_cancel_commits_buffer (penStyle : PenStyle) (newId : String)
    (paths : List Path) (st : WhiteboardState)
    (hdraw : st.isDrawing = true) (hbuf : st.currentPathPoints ≠ []) :
    (handlePointerCancel ToolType.PEN penStyle newId paths st).2 =
      paths ++ [{ id := newId, points := st.currentPathPoints,
                  color := penStyle.color, width := penStyle.width }] ∧
      (handlePointerCancel ToolType.PEN penStyle newId paths st).1.currentPathPoints = [] ∧
      (handlePointerCancel ToolType.PEN penStyle newId paths st).1.isDrawing = false ∧
      (handlePointerCancel ToolType.PEN penStyle newId paths st).1.captured = false := by
  have hlen : 0 < st.currentPathPoints.length := List.length_pos.mpr hbuf
  unfold handlePointerCancel handlePointerUp
  cases hsel : st.selectionRect with
  | none => simp [hsel, hdraw, hlen]
  | some sr =>
    by_cases hrect : 4 < (normalizeRect sr.start sr.stop).width ∧
        4 < (normalizeRect sr.start sr.stop).height
    · simp [hsel, hdraw, hlen, hrect]
    · simp [hsel, hdraw, hlen, hrect]

/-- C3 witness for the amended statement: cancelling with buffer [(0,0)]
appends exactly that one-point stroke. -/
theorem pointer_cancel_commits_witness :
    (⟨true, [⟨0, 0⟩], none, none, none, none, [], true⟩ : WhiteboardState).isDrawing = true ∧
      (⟨true, [⟨0, 0⟩], none, none, none, none, [], true⟩ :
          WhiteboardState).currentPathPoints ≠ [] ∧
      ((handlePointerCancel ToolType.PEN ⟨("black"), ("black"), ("#111827"), 3, none⟩ ("s1")
          [] ⟨true, [⟨0, 0⟩], none, none, none, none, [], true⟩).2 =
        [] ++ [{ id := ("s1"), points := [⟨0, 0⟩], color := ("#111827"), width := 3 }] ∧
        (handlePointerCancel ToolType.PEN ⟨("black"), ("black"), ("#111827"), 3, none⟩ ("s1")
          [] ⟨true, [⟨0, 0⟩], none, none, none, none, [], true⟩).1.currentPathPoints = [] ∧
        (handlePointerCancel ToolType.PEN ⟨("black"), ("black"), ("#111827"), 3, none⟩ ("s1")
          [] ⟨true, [⟨0, 0⟩], none, none, none, none, [], true⟩).1.isDrawing = false ∧
        (handlePointerCancel ToolType.PEN ⟨("black"), ("black"), ("#111827"), 3, none⟩ ("s1")
          [] ⟨true, [⟨0, 0⟩], none, none, none, none, [], true⟩).1.captured = false) :=
  ⟨rfl, by decide,
    pointer_cancel_commits_buffer ⟨("black"), ("black"), ("#111827"), 3, none⟩ ("s1") [] _
      rfl (by decide)⟩

/-- C7: on pointer-up of a marquee gesture (a selection rectangle is active and
the selection was cleared on pointer-down), the committed selection is exactly
the ids of the strokes whose bounding box intersects the normalized rectangle
when the rectangle exceeds 4x4; a rectangle below 4 in either dimension
commits no selection (the cleared selection stands), and the marquee rectangle
is dismissed. -/
theorem marquee_selection_commit (penStyle : PenStyle) (newId : String)
    (paths : List Path) (st : WhiteboardState) (sr : SelectionRect)
    (hsel : st.selectionRect = some sr) (hempty : st.selectedPathIds = []) :
    ((4 < (normalizeRect sr.start sr.stop).width ∧
        4 < (normalizeRect sr.start sr.stop).height) →
      (handlePointerUp ToolType.SELECT penStyle newId paths st).1.selectedPathIds =
        (paths.filter (fun p =>
          rectsIntersect (getPathBounds p) (normalizeRect sr.start sr.stop))).map Path.id) ∧
    (((normalizeRect sr.start sr.stop).width < 4 ∨
        (normalizeRect sr.start sr.stop).height < 4) →
      (handlePointerUp ToolType.SELECT penStyle newId paths st).1.selectedPathIds = []) ∧
    (handlePointerUp ToolType.SELECT penStyle newId paths st).1.selectionRect = none := by
  refine ⟨?_, ?_, ?_⟩
  · intro hrect
    unfold handlePointerUp
    cases hd : st.isDrawing <;> simp [hsel, hrect, hd]
  · intro hlt
    have hnrect : ¬(4 < (normalizeRect sr.start sr.stop).width ∧
        4 < (normalizeRect sr.start sr.stop).height) := by
      rintro ⟨h1, h2⟩
      rcases hlt with h | h
      · exact absurd h (not_lt.mpr (le_of_lt h1))
      · exact absurd h (not_lt.mpr (le_of_lt h2))
    unfold handlePointerUp
    cases hd : st.isDrawing <;> simp [hsel, hnrect, hd, hempty]
  · unfold handlePointerUp
    cases hd : st.isDrawing <;>
      by_cases hrect : 4 < (normalizeRect sr.start sr.stop).width ∧
        4 < (normalizeRect sr.start sr.stop).height <;>
      simp [hsel, hrect, hd]

/-- C7 witness: a 10x10 marquee from (0,0) to (10,10) over one stroke inside
and one outside. -/
theorem marquee_selection_witness :
    (⟨false, [], none, none, none, some ⟨⟨0, 0⟩, ⟨10, 10⟩⟩, [], true⟩ :
        WhiteboardState).selectionRect = some ⟨⟨0, 0⟩, ⟨10, 10⟩⟩ ∧
      (⟨false, [], none, none, none, some ⟨⟨0, 0⟩, ⟨10, 10⟩⟩, [], true⟩ :
          WhiteboardState).selectedPathIds = [] ∧
      (((4 : ℚ) < (normalizeRect ⟨0, 0⟩ ⟨10, 10⟩).width ∧
          (4 : ℚ) < (normalizeRect ⟨0, 0⟩ ⟨10, 10⟩).height →
        (handlePointerUp ToolType.SELECT ⟨("black"), ("black"), ("#111827"), 3, none⟩ ("u1")
            [⟨("a"), [⟨1, 1⟩, ⟨2, 2⟩], ("#111827"), 3⟩,
             ⟨("b"), [⟨100, 100⟩, ⟨120, 120⟩], ("#111827"), 3⟩]
            ⟨false, [], none, none, none, some ⟨⟨0, 0⟩, ⟨10, 10⟩⟩, [], true⟩).1.selectedPathIds =
          (([⟨("a"), [⟨1, 1⟩, ⟨2, 2⟩], ("#111827"), 3⟩,
             ⟨("b"), [⟨100, 100⟩, ⟨120, 120⟩], ("#111827"), 3⟩] : List Path).filter
            (fun p => rectsIntersect (getPathBounds p)
              (normalizeRect ⟨0, 0⟩ ⟨10, 10⟩))).map Path.id) ∧
      ((normalizeRect ⟨0, 0⟩ ⟨10, 10⟩).width < 4 ∨
          (normalizeRect ⟨0, 0⟩ ⟨10, 10⟩).height < 4 →
        (handlePointerUp ToolType.SELECT ⟨("black"), ("black"), ("#111827"), 3, none⟩ ("u1")
            [⟨("a"), [⟨1, 1⟩, ⟨2, 2⟩], ("#111827"), 3⟩,
             ⟨("b"), [⟨100, 100⟩, ⟨120, 120⟩], ("#111827"), 3⟩]
            ⟨false, [], none, none, none, some ⟨⟨0, 0⟩, ⟨10, 10⟩⟩, [], true⟩).1.selectedPathIds =
          []) ∧
      (handlePointerUp ToolType.SELECT ⟨("black"), ("black"), ("#111827"), 3, none⟩ ("u1")
          [⟨("a"), [⟨1, 1⟩, ⟨2, 2⟩], ("#111827"), 3⟩,
           ⟨("b"), [⟨100, 100⟩, ⟨120, 120⟩], ("#111827"), 3⟩]
          ⟨false, [], none, none, none, some ⟨⟨0, 0⟩, ⟨10, 10⟩⟩, [], true⟩).1.selectionRect =
        none) :=
  ⟨rfl, rfl,
    marquee_selection_commit ⟨("black"), ("black"), ("#111827"), 3, none⟩ ("u1")
      [⟨("a"), [⟨1, 1⟩, ⟨2, 2⟩], ("#111827"), 3⟩,
       ⟨("b"), [⟨100, 100⟩, ⟨120, 120⟩], ("#111827"), 3⟩]
      ⟨false, [], none, none, none, some ⟨⟨0, 0⟩, ⟨10, 10⟩⟩, [], true⟩
      ⟨⟨0, 0⟩, ⟨10, 10⟩⟩ rfl rfl⟩

/-! ### Eraser and hit-test lemmas -/

theorem eraseAtStrokes_eq_filter (pos : Point) (paths : List Path)
    (hids : (paths.map Path.id).Nodup) :
    eraseAtStrokes pos paths = paths.filter (fun p => !(pathHitByEraser pos p)) := by
  have hinj := List.inj_on_of_nodup_map hids
  unfold eraseAtStrokes
  by_cases hlen : 0 < (pathIdsToErase pos paths).length
  · simp only [hlen, if_pos]
    rw [deletePaths_eq_filter]
    apply List.filter_congr
    intro p hp
    congr 1
    cases hhit : pathHitByEraser pos p
    · apply memStr_eq_false
      intro hmem
      obtain ⟨q, hq, hqid⟩ := List.mem_map.mp hmem
      obtain ⟨hqp, hqhit⟩ := List.mem_filter.mp hq
      have : q = p := hinj hqp hp hqid
      subst this
      rw [hqhit] at hhit
      exact Bool.true_eq_false.mp hhit
    · exact (memStr_iff _ _).mpr
        (List.mem_map.mpr ⟨p, List.mem_filter.mpr ⟨hp, hhit⟩, rfl⟩)
  · simp only [hlen, if_neg, not_false_iff]
    have hnil : pathIdsToErase pos paths = [] :=
      List.length_eq_zero.mp (Nat.eq_zero_of_not_pos hlen)
    have hfnil : paths.filter (fun p => pathHitByEraser pos p) = [] :=
      List.map_eq_nil_iff.mp hnil
    symm
    apply List.filter_eq_self.mpr
    intro p hp
    have := List.filter_eq_nil_iff.mp hfnil p hp
    simp only [Bool.not_eq_true] at this
    simp [this]

/-- C2: the erase operation at a point deletes, through one single
`deletePaths` call, exactly the strokes having some segment at distance
strictly below 20 units from the point (squared distance below 400); every
stroke all of whose segments are at distance 20 or more survives untouched, in
order. -/
theorem eraseAt_deletes_strokes_within_radius (pos : Point) (paths : List Path)
    (hids : (paths.map Path.id).Nodup) :
    eraseAtStrokes pos paths =
      paths.filter (fun p : Path =>
        decide (∀ s ∈ segments p.points, 400 ≤ distToSegmentSq pos s.1 s.2)) := by
  rw [eraseAtStrokes_eq_filter pos paths hids]
  apply List.filter_congr
  intro p _
  have hiff : pathHitByEraser pos p = false ↔
      ∀ s ∈ segments p.points, 400 ≤ distToSegmentSq pos s.1 s.2 := by
    rw [← Bool.not_eq_true]
    simp [pathHitByEraser, List.any_eq_true, not_lt]
  by_cases hall : ∀ s ∈ segments p.points, 400 ≤ distToSegmentSq pos s.1 s.2
  · rw [hiff.mpr hall]
    simp only [Bool.not_false]
    exact (decide_eq_true hall).symm
  · have hhit : pathHitByEraser pos p = true := by
      cases hb : pathHitByEraser pos p
      · exact absurd (hiff.mp hb) hall
      · rfl
    rw [hhit]
    simp only [Bool.not_true]
    exact (decide_eq_false hall).symm

/-- C2 witness: Scenario A of the spec, a stroke through (0,0)-(10,0)-(10,10)
erased at (10,5). -/
theorem eraseAt_radius_witness :
    (([⟨("s1"), [⟨0, 0⟩, ⟨10, 0⟩, ⟨10, 10⟩], ("#111827"), 3⟩] : List Path).map Path.id).Nodup ∧
      eraseAtStrokes ⟨10, 5⟩ [⟨("s1"), [⟨0, 0⟩, ⟨10, 0⟩, ⟨10, 10⟩], ("#111827"), 3⟩] =
        ([⟨("s1"), [⟨0, 0⟩, ⟨10, 0⟩, ⟨10, 10⟩], ("#111827"), 3⟩] : List Path).filter
          (fun p : Path =>
            decide (∀ s ∈ segments p.points, 400 ≤ distToSegmentSq ⟨10, 5⟩ s.1 s.2)) :=
  ⟨by decide, eraseAt_deletes_strokes_within_radius _ _ (by decide)⟩

theorem segments_of_length_one {pts : List Point} (h : pts.length = 1) :
    segments pts = [] := by
  obtain ⟨a, rfl⟩ := List.length_eq_one.mp h
  rfl

theorem two_le_of_segments_ne_nil (pts : List Point) (h : segments pts ≠ []) :
    2 ≤ pts.length := by
  match pts with
  | [] => exact absurd rfl h
  | [a] => exact absurd rfl h
  | a :: b :: rest => simp

theorem foldl_step_shape {σ β : Type} (g : σ → β → σ) (Q : σ → Prop)
    (hstep : ∀ c s, g c s = c ∨ Q (g c s)) :
    ∀ (l : List β) (c : σ), List.foldl g c l = c ∨ Q (List.foldl g c l) := by
  intro l
  induction l with
  | nil => intro c; left; rfl
  | cons s rest ih =>
    intro c
    rcases hstep c s with h | h
    · rw [List.foldl_cons, h]
      exact ih c
    · rcases ih (g c s) with h2 | h2
      · right; rw [List.foldl_cons, h2]; exact h
      · right; rw [List.foldl_cons]; exact h2

theorem updateClosest_result (pos : Point) (thrSq : ℚ) (p : Path)
    (c : Option (Path × ℚ)) :
    updateClosest pos thrSq p c = c ∨ ∃ d, updateClosest pos thrSq p c = some (p, d) := by
  unfold updateClosest
  exact foldl_step_shape _ (fun o => ∃ d, o = some (p, d))
    (fun c s => by
      dsimp only
      split
      · exact Or.inr ⟨_, rfl⟩
      · exact Or.inl rfl)
    (segments p.points) c

theorem updateClosest_of_segments_nil (pos : Point) (thrSq : ℚ) (p : Path)
    (c : Option (Path × ℚ)) (h : segments p.points = []) :
    updateClosest pos thrSq p c = c := by
  unfold updateClosest
  rw [h]
  rfl

theorem getPathAtPoint_no_single (paths : List Path) (pos : Point) (thrSq : ℚ)
    (p : Path) (h1 : p.points.length = 1) :
    getPathAtPoint paths pos thrSq ≠ some p := by
  have hmain : ∀ c : Option (Path × ℚ),
      (∀ q d, c = some (q, d) → q.points.length ≠ 1) →
      ∀ q d, (paths.foldl (fun c q2 => updateClosest pos thrSq q2 c) c) = some (q, d) →
        q.points.length ≠ 1 := by
    induction paths with
    | nil => intro c hc q d hq; exact hc q d hq
    | cons r rest ih =>
      intro c hc q d hfold
      rw [List.foldl_cons] at hfold
      refine ih (updateClosest pos thrSq r c) ?_ q d hfold
      intro q2 d2 heq
      rcases updateClosest_result pos thrSq r c with hkeep | ⟨d3, htag⟩
      · rw [hkeep] at heq; exact hc q2 d2 heq
      · by_cases hseg : segments r.points = []
        · rw [updateClosest_of_segments_nil pos thrSq r c hseg] at heq
          exact hc q2 d2 heq
        · have hlen : 2 ≤ r.points.length := two_le_of_segments_ne_nil _ hseg
          rw [htag] at heq
          have hq2 : r = q2 := by
            have := Option.some.inj heq
            exact congrArg Prod.fst this
          rw [← hq2]
          omega
  intro hcontra
  unfold getPathAtPoint at hcontra
  obtain ⟨⟨q, d⟩, ho, hq⟩ := Option.map_eq_some'.mp hcontra
  have := hmain none (by intro q2 d2 h; exact absurd h (by simp)) q d ho
  simp only at hq
  rw [hq] at this
  exact this h1

/-- C10: a stroke whose point list has exactly one point is invisible to both
pointer hit-tests: the eraser test never matches it, `eraseAt` leaves it in the
collection, and `getPathAtPoint` never returns it (both iterate only over
segments between consecutive point pairs). -/
theorem single_point_stroke_never_hit (pos : Point) (thrSq : ℚ) (paths : List Path)
    (p : Path) (hp : p ∈ paths) (h1 : p.points.length = 1)
    (hids : (paths.map Path.id).Nodup) :
    pathHitByEraser pos p = false ∧ p ∈ eraseAtStrokes pos paths ∧
      getPathAtPoint paths pos thrSq ≠ some p := by
  have hseg : segments p.points = [] := segments_of_length_one h1
  have hhit : pathHitByEraser pos p = false := by
    unfold pathHitByEraser
    rw [hseg]
    rfl
  refine ⟨hhit, ?_, getPathAtPoint_no_single paths pos thrSq p h1⟩
  rw [eraseAtStrokes_eq_filter pos paths hids]
  exact List.mem_filter.mpr ⟨hp, by simp [hhit]⟩

/-! ### Transform round trip -/

theorem map_map_id {α : Type} (f g : α → α) (h : ∀ a, g (f a) = a) :
    ∀ l : List α, List.map g (List.map f l) = l := by
  intro l
  induction l with
  | nil => rfl
  | cons a l ih => simp [h a, ih]

/-- C6: applying the group resize transform that scales every point of every
selected stroke by factor k per axis about the bounding-box anchor, and then
the transform with factor 1/k about the same anchor, restores every point
coordinate exactly (over the rationals; exact recovery in particular lies
within any floating-point tolerance). -/
theorem resize_scale_roundtrip (bounds : Bounds) (k : ℚ) (originPaths : List Path)
    (hk : 0 < k) :
    scaleSelectedPaths bounds (1 / k) (1 / k) (scaleSelectedPaths bounds k k originPaths) =
      originPaths := by
  have hk0 : k ≠ 0 := ne_of_gt hk
  unfold scaleSelectedPaths
  apply map_map_id
  intro p
  cases p with
  | mk pid pts c w =>
    simp only []
    congr 1
    apply map_map_id
    intro q
    cases q with
    | mk qx qy =>
      simp only [Point.mk.injEq]
      constructor <;> field_simp

/-- C6 witness: scaling by 2 then 1/2 about anchor (0,0) restores a concrete
stroke. -/
theorem resize_scale_roundtrip_witness :
    (0 : ℚ) < 2 ∧
      scaleSelectedPaths ⟨0, 0, 10, 10⟩ (1 / 2) (1 / 2)
          (scaleSelectedPaths ⟨0, 0, 10, 10⟩ 2 2
            [⟨("a"), [⟨1, 2⟩, ⟨3, 4⟩], ("#111827"), 3⟩]) =
        [⟨("a"), [⟨1, 2⟩, ⟨3, 4⟩], ("#111827"), 3⟩] :=
  ⟨by norm_num, resize_scale_roundtrip ⟨0, 0, 10, 10⟩ 2 _ (by norm_num)⟩

/-! ### Idempotence of updateNote -/

theorem jsOr_idem (a b : String) : jsOr (jsOr a b) b = jsOr a b := by
  by_cases ha : a = "" <;> by_cases hb : b = "" <;> simp [jsOr, ha, hb]

theorem jsOrOpt_self (b : Option String) : jsOrOpt b b = b := by
  cases b with
  | none => rfl
  | some s => by_cases hs : s = "" <;> simp [jsOrOpt, hs]

theorem jsOrOpt_idem (a b : Option String) : jsOrOpt (jsOrOpt a b) b = jsOrOpt a b := by
  cases a with
  | none => exact jsOrOpt_self b
  | some s =>
    by_cases hs : s = ""
    · have h1 : jsOrOpt (some s) b = b := by simp [jsOrOpt, hs]
      rw [h1]
      exact jsOrOpt_self b
    · have h1 : jsOrOpt (some s) b = some s := by simp [jsOrOpt, hs]
      rw [h1, h1]

theorem mergeNote_idem (e n : StickyNote) : mergeNote (mergeNote e n) n = mergeNote e n := by
  simp [mergeNote, jsOr_idem, jsOrOpt_idem]

theorem updateNote_notesMeta (n : StickyNote) (d : Doc) :
    (updateNote n d).notesMeta =
      if metaDiffers (lookupAssoc d.notesMeta n.id) (nextMetaOfNote n) then
        setAssoc d.notesMeta n.id (nextMetaOfNote n)
      else d.notesMeta := by
  simp only [updateNote]
  cases hex : lookupAssoc d.notes n.id <;> dsimp only <;> split_ifs <;> rfl

theorem updateNote_notes (n : StickyNote) (d : Doc) :
    (updateNote n d).notes =
      match lookupAssoc d.notes n.id with
      | none => setAssoc d.notes n.id n
      | some e =>
        if e.text ≠ n.text ∨ e.color ≠ n.color then
          setAssoc d.notes n.id (mergeNote e n)
        else d.notes := by
  simp only [updateNote]
  cases hex : lookupAssoc d.notes n.id <;> dsimp only <;> split_ifs <;> rfl

theorem updateNote_paths (n : StickyNote) (d : Doc) : (updateNote n d).paths = d.paths := by
  simp only [updateNote]
  cases hex : lookupAssoc d.notes n.id <;> dsimp only <;> split_ifs <;> rfl

theorem updateNote_images (n : StickyNote) (d : Doc) :
    (updateNote n d).images = d.images := by
  simp only [updateNote]
  cases hex : lookupAssoc d.notes n.id <;> dsimp only <;> split_ifs <;> rfl

theorem updateNote_imagesMeta (n : StickyNote) (d : Doc) :
    (updateNote n d).imagesMeta = d.imagesMeta := by
  simp only [updateNote]
  cases hex : lookupAssoc d.notes n.id <;> dsimp only <;> split_ifs <;> rfl

theorem updateNote_files (n : StickyNote) (d : Doc) : (updateNote n d).files = d.files := by
  simp only [updateNote]
  cases hex : lookupAssoc d.notes n.id <;> dsimp only <;> split_ifs <;> rfl

theorem updateNote_filesMeta (n : StickyNote) (d : Doc) :
    (updateNote n d).filesMeta = d.filesMeta := by
  simp only [updateNote]
  cases hex : lookupAssoc d.notes n.id <;> dsimp only <;> split_ifs <;> rfl

theorem metaDiffers_refl (m : ItemMeta) : metaDiffers (some m) m = false := by
  simp [metaDiffers]

theorem metaDiffers_after (n : StickyNote) (d : Doc) :
    metaDiffers (lookupAssoc (updateNote n d).notesMeta n.id) (nextMetaOfNote n) = false := by
  rw [updateNote_notesMeta]
  by_cases hmd : metaDiffers (lookupAssoc d.notesMeta n.id) (nextMetaOfNote n)
  · rw [if_pos hmd, lookupAssoc_setAssoc_self]
    exact metaDiffers_refl _
  · rw [if_neg hmd]
    simp only [Bool.not_eq_true] at hmd
    exact hmd

/-- C8: applying `updateNote` twice with the identical payload yields the same
document state as applying it once, across all four collections and the meta
shadow maps. -/
theorem updateNote_idempotent (note : StickyNote) (d : Doc) :
    updateNote note (updateNote note d) = updateNote note d := by
  ext1
  · rw [updateNote_paths]
  · rw [updateNote_notes note (updateNote note d)]
    cases hex : lookupAssoc d.notes note.id with
    | none =>
      have hD1 : (updateNote note d).notes = setAssoc d.notes note.id note := by
        rw [updateNote_notes note d, hex]
      have hl : lookupAssoc (updateNote note d).notes note.id = some note := by
        rw [hD1]; exact lookupAssoc_setAssoc_self _ _ _
      rw [hl]
      simp
    | some e =>
      by_cases hcond : e.text ≠ note.text ∨ e.color ≠ note.color
      · have hD1 : (updateNote note d).notes = setAssoc d.notes note.id (mergeNote e note) := by
          rw [updateNote_notes note d, hex]
          dsimp only
          rw [if_pos hcond]
        have hl : lookupAssoc (updateNote note d).notes note.id = some (mergeNote e note) := by
          rw [hD1]; exact lookupAssoc_setAssoc_self _ _ _
        rw [hl]
        dsimp only
        by_cases hcond2 : (mergeNote e note).text ≠ note.text ∨
            (mergeNote e note).color ≠ note.color
        · rw [if_pos hcond2, mergeNote_idem, setAssoc_lookup_self _ _ _ hl]
        · rw [if_neg hcond2]
      · have hD1 : (updateNote note d).notes = d.notes := by
          rw [updateNote_notes note d, hex]
          dsimp only
          rw [if_neg hcond]
        have hl : lookupAssoc (updateNote note d).notes note.id = some e := by
          rw [hD1, hex]
        rw [hl]
        dsimp only
        rw [if_neg hcond, hD1]
  · rw [updateNote_notesMeta note (updateNote note d)]
    have hafter := metaDiffers_after note d
    rw [hafter]
    simp
  · rw [updateNote_images]
  · rw [updateNote_imagesMeta]
  · rw [updateNote_files]
  · rw [updateNote_filesMeta]

/-- C10 witness: a one-point stroke at (5,5), probed exactly at (5,5). -/
theorem single_point_stroke_witness :
    (⟨("d1"), [⟨5, 5⟩], ("#111827"), 3⟩ : Path) ∈
        ([⟨("d1"), [⟨5, 5⟩], ("#111827"), 3⟩] : List Path) ∧
      (⟨("d1"), [⟨5, 5⟩], ("#111827"), 3⟩ : Path).points.length = 1 ∧
      (([⟨("d1"), [⟨5, 5⟩], ("#111827"), 3⟩] : List Path).map Path.id).Nodup ∧
      (pathHitByEraser ⟨5, 5⟩ ⟨("d1"), [⟨5, 5⟩], ("#111827"), 3⟩ = false ∧
        (⟨("d1"), [⟨5, 5⟩], ("#111827"), 3⟩ : Path) ∈
          eraseAtStrokes ⟨5, 5⟩ [⟨("d1"), [⟨5, 5⟩], ("#111827"), 3⟩] ∧
        getPathAtPoint [⟨("d1"), [⟨5, 5⟩], ("#111827"), 3⟩] ⟨5, 5⟩ 64 ≠
          some ⟨("d1"), [⟨5, 5⟩], ("#111827"), 3⟩) :=
  ⟨by decide, rfl, by decide,
    single_point_stroke_never_hit ⟨5, 5⟩ 64 _ _ (by decide) rfl (by decide)⟩

/-! ### Identity ledger lemmas -/

theorem mem_dedupFirstAux (s : String) (l : List String) :
    ∀ seen : List String, s ∈ l → memStr seen s = false → s ∈ dedupFirstAux seen l := by
  induction l with
  | nil => intro seen hs _; cases hs
  | cons x xs ih =>
    intro seen hs hseen
    by_cases hx : memStr seen x
    · rcases List.mem_cons.mp hs with rfl | hs2
      · rw [hseen] at hx
        exact absurd hx (by simp)
      · simpa [dedupFirstAux, hx] using ih seen hs2 hseen
    · rcases List.mem_cons.mp hs with rfl | hs2
      · simp [dedupFirstAux, hx]
      · by_cases hsx : s = x
        · subst hsx
          simp [dedupFirstAux, hx]
        · have hseen2 : memStr (x :: seen) s = false := by
            have : ¬ x = s := fun hh => hsx hh.symm
            simp [memStr, this, hseen]
          simp only [dedupFirstAux, hx, if_neg, Bool.false_eq_true, not_false_iff,
            List.mem_cons]
          exact Or.inr (ih (x :: seen) hs2 hseen2)

theorem indexOfStr_some_of_mem (s : String) (l : List String) (h : s ∈ l) :
    ∃ n, indexOfStr l s = some n := by
  induction l with
  | nil => cases h
  | cons x xs ih =>
    by_cases hx : x = s
    · exact ⟨0, by simp [indexOfStr, hx]⟩
    · rcases List.mem_cons.mp h with rfl | h2
      · exact absurd rfl hx
      · obtain ⟨n, hn⟩ := ih h2
        exact ⟨n + 1, by simp [indexOfStr, hx, hn]⟩

theorem indexOfStr_append_left {l : List String} {s : String} {n : Nat}
    (h : indexOfStr l s = some n) (m : List String) :
    indexOfStr (l ++ m) s = some n := by
  induction l generalizing n with
  | nil => simp [indexOfStr] at h
  | cons x xs ih =>
    by_cases hx : x = s
    · simp only [List.cons_append, indexOfStr, hx, if_pos] at h ⊢
      exact h
    · simp only [List.cons_append, indexOfStr, hx, if_neg, not_false_iff,
        List.append_eq] at h ⊢
      obtain ⟨n2, hn2, rfl⟩ := Option.map_eq_some'.mp h
      rw [ih hn2]
      rfl

theorem dedupFirstAux_append (l : List String) :
    ∀ (seen m : List String),
      dedupFirstAux seen (l ++ m) =
        dedupFirstAux seen l ++ dedupFirstAux (seenAfter seen l) m := by
  induction l with
  | nil => intro seen m; simp [dedupFirstAux, seenAfter]
  | cons x xs ih =>
    intro seen m
    by_cases hx : memStr seen x
    · simp [dedupFirstAux, seenAfter, hx, ih]
    · simp [dedupFirstAux, seenAfter, hx, ih]

theorem ensureLocal_core (userId userName : String) (userOrder : List String)
    (users : List (String × UserEntry)) (h : userId ≠ "") :
    ∃ o e,
      indexOfStr (dedupFirst (ensureLocalUserLedger userId userName userOrder users).1)
          userId = some o ∧
      lookupAssoc (ensureLocalUserLedger userId userName userOrder users).2 userId = some e ∧
      e.order = o ∧ e.color = USER_COLORS.getD (o % USER_COLORS.length) ("") := by
  have hmem : userId ∈ ledgerOrderIds userId userOrder := by
    unfold ledgerOrderIds
    by_cases hc : memStr userOrder userId
    · rw [if_pos hc]
      exact (memStr_iff _ _).mp hc
    · rw [if_neg hc]
      simp
  have hmemd : userId ∈ dedupFirst (ledgerOrderIds userId userOrder) :=
    mem_dedupFirstAux userId _ [] hmem rfl
  obtain ⟨o, ho⟩ := indexOfStr_some_of_mem userId _ hmemd
  refine ⟨o, ?_⟩
  simp only [ensureLocalUserLedger, if_neg h]
  rw [ho]
  dsimp only
  cases hlu : lookupAssoc users userId with
  | none =>
    refine ⟨⟨userName, USER_COLORS.getD (o % USER_COLORS.length) (""), o⟩, rfl, ?_, rfl, rfl⟩
    exact lookupAssoc_setAssoc_self _ _ _
  | some ex =>
    dsimp only
    by_cases hch : ex.name ≠ userName ∨ ex.order ≠ o ∨
        ex.color ≠ USER_COLORS.getD (o % USER_COLORS.length) ("")
    · rw [if_pos hch]
      exact ⟨⟨userName, USER_COLORS.getD (o % USER_COLORS.length) (""), o⟩,
        rfl, lookupAssoc_setAssoc_self _ _ _, rfl, rfl⟩
    · rw [if_neg hch]
      push_neg at hch
      exact ⟨ex, rfl, hlu, hch.2.1, hch.2.2⟩

/-- C9: after `ensureLocalUser` runs, the durable participant has a ledger
entry whose join order is its position in the deduplicated append-only
`user_order` sequence and whose colour is `USER_COLORS[order % |USER_COLORS|]`;
when the id is already in the sequence the sequence is left unchanged (the
join order is never reassigned), and the derived join order is stable under
any later appends to the sequence, so the colour every peer computes from the
replicated ledger is the same and survives reconnects. -/
theorem participant_color_from_join_order (userOrder : List String)
    (users : List (String × UserEntry)) (userId userName : String)
    (extra : List String) (h : userId ≠ "") :
    (lookupAssoc (ensureLocalUserLedger userId userName userOrder users).2 userId).map
        (fun e => e.order) =
      joinOrderOf userId (ensureLocalUserLedger userId userName userOrder users).1 ∧
    (lookupAssoc (ensureLocalUserLedger userId userName userOrder users).2 userId).map
        (fun e => e.color) =
      (joinOrderOf userId (ensureLocalUserLedger userId userName userOrder users).1).map
        (fun o => USER_COLORS.getD (o % USER_COLORS.length) ("")) ∧
    (memStr userOrder userId = true →
      (ensureLocalUserLedger userId userName userOrder users).1 = userOrder) ∧
    joinOrderOf userId
        ((ensureLocalUserLedger userId userName userOrder users).1 ++ extra) =
      joinOrderOf userId (ensureLocalUserLedger userId userName userOrder users).1 := by
  obtain ⟨o, e, ho, he, heo, hec⟩ := ensureLocal_core userId userName userOrder users h
  refine ⟨?_, ?_, ?_, ?_⟩
  · rw [he]
    unfold joinOrderOf
    rw [ho, Option.map_some']
    rw [heo]
  · rw [he]
    unfold joinOrderOf
    rw [ho, Option.map_some', Option.map_some']
    rw [hec]
  · intro hc
    simp only [ensureLocalUserLedger, if_neg h, ledgerOrderIds, hc, if_pos]
  · have ho2 : indexOfStr (dedupFirstAux []
        (ensureLocalUserLedger userId userName userOrder users).1) userId = some o := ho
    unfold joinOrderOf dedupFirst
    rw [dedupFirstAux_append, indexOfStr_append_left ho2 _, ho2]

/-- C9 witness: user bob joining after alice gets join order 1 and the second
palette colour, and the order survives a later append of carol. -/
theorem participant_color_witness :
    ("bob" : String) ≠ "" ∧
      ((lookupAssoc (ensureLocalUserLedger ("bob") ("Bob") ["alice"] []).2 ("bob")).map
          (fun e => e.order) =
        joinOrderOf ("bob") (ensureLocalUserLedger ("bob") ("Bob") ["alice"] []).1 ∧
      (lookupAssoc (ensureLocalUserLedger ("bob") ("Bob") ["alice"] []).2 ("bob")).map
          (fun e => e.color) =
        (joinOrderOf ("bob") (ensureLocalUserLedger ("bob") ("Bob") ["alice"] []).1).map
          (fun o => USER_COLORS.getD (o % USER_COLORS.length) ("")) ∧
      (memStr ["alice"] ("bob") = true →
        (ensureLocalUserLedger ("bob") ("Bob") ["alice"] []).1 = ["alice"]) ∧
      joinOrderOf ("bob")
          ((ensureLocalUserLedger ("bob") ("Bob") ["alice"] []).1 ++ ["carol"]) =
        joinOrderOf ("bob") (ensureLocalUserLedger ("bob") ("Bob") ["alice"] []).1) :=
  ⟨by decide,
    participant_color_from_join_order ["alice"] [] ("bob") ("Bob") ["carol"] (by decide)⟩

end Whiteboard
